import Mathlib

/-!
Verification of the argument-normalization and command-resolution layer of the
imperative CLI framework (CliUtils and YargsConfigurer).

Strings are modelled as `List Char` (JS strings over the ASCII range, which is
the range the option-name conventions of this code operate on); the core
`Char.toUpper`, `Char.toLower`, `Char.isUpper`, `Char.isLower` functions
implement exactly the ASCII case mapping that JS `toUpperCase`/`toLowerCase`
and the regex classes `[A-Z]`/`\w` perform on ASCII characters.
-/

namespace ImperativeCli

/-- `\w` of the JS regex engine on ASCII: letters, digits and underscore. -/
def isWordChar (c : Char) : Bool :=
  c.isUpper || c.isLower || c.isDigit || c = '_'

/-! ### Arithmetic facts about the ASCII case maps -/

theorem charOfNat_toNat (n : Nat) (h : n.isValidChar) : (Char.ofNat n).toNat = n := by
  simp only [Char.ofNat, dif_pos h, Char.ofNatAux, Char.toNat, UInt32.toNat]
  simp [BitVec.toNat_ofNatLt]

theorem char_toNat_inj {c d : Char} (h : c.toNat = d.toNat) : c = d :=
  Char.ext (UInt32.ext h)

theorem isLower_iff (c : Char) : c.isLower = true ↔ 97 ≤ c.toNat ∧ c.toNat ≤ 122 := by
  simp only [Char.isLower, Bool.and_eq_true, decide_eq_true_iff]
  exact Iff.rfl

theorem isUpper_iff (c : Char) : c.isUpper = true ↔ 65 ≤ c.toNat ∧ c.toNat ≤ 90 := by
  simp only [Char.isUpper, Bool.and_eq_true, decide_eq_true_iff]
  exact Iff.rfl

theorem toUpper_toNat {c : Char} (h : c.isLower = true) : c.toUpper.toNat = c.toNat - 32 := by
  rw [isLower_iff] at h
  rw [Char.toUpper, if_pos ⟨h.1, h.2⟩]
  exact charOfNat_toNat _ (by unfold Nat.isValidChar; left; omega)

theorem toUpper_of_not_lower {c : Char} (h : c.isLower = false) : c.toUpper = c := by
  have h' : ¬(97 ≤ c.toNat ∧ c.toNat ≤ 122) := by
    intro hc
    rw [← isLower_iff c] at hc
    simp [h] at hc
  rw [Char.toUpper, if_neg h']

theorem toLower_toNat {c : Char} (h : c.isUpper = true) : c.toLower.toNat = c.toNat + 32 := by
  rw [isUpper_iff] at h
  rw [Char.toLower, if_pos ⟨h.1, h.2⟩]
  exact charOfNat_toNat _ (by unfold Nat.isValidChar; left; omega)

theorem toLower_of_not_upper {c : Char} (h : c.isUpper = false) : c.toLower = c := by
  have h' : ¬(65 ≤ c.toNat ∧ c.toNat ≤ 90) := by
    intro hc
    rw [← isUpper_iff c] at hc
    simp [h] at hc
  rw [Char.toLower, if_neg h']

theorem not_upper_of_lower {c : Char} (h : c.isLower = true) : c.isUpper = false := by
  rw [isLower_iff] at h
  cases hu : c.isUpper with
  | false => rfl
  | true => rw [isUpper_iff] at hu; omega

theorem not_lower_of_upper {c : Char} (h : c.isUpper = true) : c.isLower = false := by
  rw [isUpper_iff] at h
  cases hl : c.isLower with
  | false => rfl
  | true => rw [isLower_iff] at hl; omega

theorem isUpper_toUpper {c : Char} (h : c.isLower = true) : c.toUpper.isUpper = true := by
  rw [isUpper_iff, toUpper_toNat h]
  rw [isLower_iff] at h
  omega

theorem isLower_toLower {c : Char} (h : c.isUpper = true) : c.toLower.isLower = true := by
  rw [isLower_iff, toLower_toNat h]
  rw [isUpper_iff] at h
  omega

theorem toLower_toUpper {c : Char} (h : c.isLower = true) : c.toUpper.toLower = c := by
  apply char_toNat_inj
  rw [toLower_toNat (isUpper_toUpper h), toUpper_toNat h]
  rw [isLower_iff] at h
  omega

theorem toUpper_toLower {c : Char} (h : c.isUpper = true) : c.toLower.toUpper = c := by
  apply char_toNat_inj
  rw [toUpper_toNat (isLower_toLower h), toLower_toNat h]
  rw [isUpper_iff] at h
  omega

theorem toUpper_of_upper {c : Char} (h : c.isUpper = true) : c.toUpper = c :=
  toUpper_of_not_lower (not_lower_of_upper h)

theorem toLower_of_lower {c : Char} (h : c.isLower = true) : c.toLower = c :=
  toLower_of_not_upper (not_upper_of_lower h)

theorem dash_toNat : ('-').toNat = 45 := by decide

theorem ne_dash_of_lower {c : Char} (h : c.isLower = true) : c ≠ '-' := by
  intro he
  rw [isLower_iff] at h
  rw [he, dash_toNat] at h
  omega

theorem ne_dash_of_upper {c : Char} (h : c.isUpper = true) : c ≠ '-' := by
  intro he
  rw [isUpper_iff] at h
  rw [he, dash_toNat] at h
  omega

theorem wordChar_of_lower {c : Char} (h : c.isLower = true) : isWordChar c = true := by
  simp [isWordChar, h]

theorem wordChar_of_upper {c : Char} (h : c.isUpper = true) : isWordChar c = true := by
  simp [isWordChar, h]

/-!
## CliUtils.getOptionFormat (src/unnamed/part_000, lines 365-443)

`camelCase` embeds `key.replace(/(-+\w?)/g, m => ...)`: the JS regex engine
scans left to right; at each `-` it greedily consumes the whole dash run plus
at most one following word character, and the replacement emits the uppercased
last character of the match unless that last character is `-` (dashes-only
match), in which case it emits nothing.  All other characters pass through.

The recursion below consumes a dash run one dash at a time: a dash whose
successor is another dash contributes nothing and processing continues on the
rest of the run, which yields exactly the same output as the single
maximal-munch match because the replacement depends only on the last character
of the match and emits nothing for all earlier characters of the run.
-/

def camelCase : List Char → List Char
  | [] => []
  | [c] => if c = '-' then [] else [c]
  | c :: d :: rest =>
    if c = '-' then
      if d = '-' then
        -- still inside the dash run: the leading dash contributes nothing
        camelCase (d :: rest)
      else if isWordChar d then
        -- match "-+\w": emit the uppercased word character
        d.toUpper :: camelCase rest
      else
        -- match "-+" alone (next char not a word char): emit nothing,
        -- scanning resumes at the char after the run
        camelCase (d :: rest)
    else c :: camelCase (d :: rest)

/-!
`kebabCase` embeds `key.replace(/(-*[A-Z]|-{2,}|-$)/g, m => ...)`:
  * alternative `-*[A-Z]` (a dash run, possibly empty, followed by an
    uppercase letter) is replaced by `-` plus the lowercased letter;
  * alternative `-{2,}` (a dash run of length at least two not followed by an
    uppercase letter) is replaced by a single `-`, or by nothing when the run
    reaches the end of the string;
  * alternative `-$` (a single trailing dash) is replaced by nothing;
  * a single dash not followed by an uppercase letter and not at the end of
    the string matches nothing and passes through.

Again a dash run is consumed one dash at a time, which gives the same output:
for a run ending in an uppercase letter only the final `-X` pair emits `-x`;
for a run not ending in an uppercase letter the collapsed single `-` of the
`-{2,}` replacement coincides with the pass-through of the one remaining dash,
and a run abutting the end of the string disappears entirely either way.
-/

def kebabCase : List Char → List Char
  | [] => []
  | [c] =>
    if c.isUpper then ['-', c.toLower]
    else if c = '-' then [] -- "-$": a trailing dash is stripped
    else [c]
  | c :: d :: rest =>
    if c.isUpper then
      -- "[A-Z]" with no leading dashes
      '-' :: c.toLower :: kebabCase (d :: rest)
    else if c = '-' then
      if d = '-' then
        -- still inside the dash run
        kebabCase (d :: rest)
      else if d.isUpper then
        -- "-*[A-Z]": the run plus the letter becomes "-" ++ lowercased letter
        '-' :: d.toLower :: kebabCase rest
      else
        -- run not followed by an uppercase letter: a collapsed "-" remains
        '-' :: kebabCase (d :: rest)
    else c :: kebabCase (d :: rest)

/-! ### Unfolding equations for `camelCase` and `kebabCase` -/

theorem camelCase_nil : camelCase [] = [] := rfl

theorem kebabCase_nil : kebabCase [] = [] := rfl

theorem camelCase_one (c : Char) : camelCase [c] = if c = '-' then [] else [c] := rfl

theorem camelCase_cons2 (c d : Char) (rest : List Char) :
    camelCase (c :: d :: rest) =
      if c = '-' then
        if d = '-' then camelCase (d :: rest)
        else if isWordChar d then d.toUpper :: camelCase rest
        else camelCase (d :: rest)
      else c :: camelCase (d :: rest) := rfl

theorem kebabCase_one (c : Char) :
    kebabCase [c] = if c.isUpper then ['-', c.toLower] else if c = '-' then [] else [c] := rfl

theorem kebabCase_cons2 (c d : Char) (rest : List Char) :
    kebabCase (c :: d :: rest) =
      if c.isUpper then '-' :: c.toLower :: kebabCase (d :: rest)
      else if c = '-' then
        if d = '-' then kebabCase (d :: rest)
        else if d.isUpper then '-' :: d.toLower :: kebabCase rest
        else '-' :: kebabCase (d :: rest)
      else c :: kebabCase (d :: rest) := rfl

theorem camelCase_cons_nondash {c : Char} (h : c ≠ '-') (l : List Char) :
    camelCase (c :: l) = c :: camelCase l := by
  cases l with
  | nil => simp [camelCase_one, camelCase_nil, h]
  | cons d rest => rw [camelCase_cons2, if_neg h]

theorem kebabCase_cons_upper {c : Char} (h : c.isUpper = true) (l : List Char) :
    kebabCase (c :: l) = '-' :: c.toLower :: kebabCase l := by
  cases l with
  | nil => simp [kebabCase_one, kebabCase_nil, h]
  | cons d rest => rw [kebabCase_cons2, if_pos h]

theorem kebabCase_cons_other {c : Char} (hu : c.isUpper = false) (hd : c ≠ '-')
    (l : List Char) : kebabCase (c :: l) = c :: kebabCase l := by
  cases l with
  | nil => simp [kebabCase_one, kebabCase_nil, hu, hd]
  | cons d rest => rw [kebabCase_cons2, if_neg (by simp [hu]), if_neg hd]

/-! ### Round-trip stability on option names made of ASCII letters and dashes -/

/-- The character alphabet on which the two canonical forms are mutually
stable: ASCII letters and the separator dash. -/
def isLetterDash (c : Char) : Bool := c = '-' || c.isUpper || c.isLower

/-- Strings consisting solely of ASCII letters and dashes. -/
def lettersDashes (l : List Char) : Bool := l.all isLetterDash

theorem letterDash_cases {c : Char} (h : isLetterDash c = true) :
    c = '-' ∨ c.isUpper = true ∨ c.isLower = true := by
  simpa [isLetterDash, or_assoc] using h

theorem lettersDashes_cons {c : Char} {l : List Char} (h : lettersDashes (c :: l) = true) :
    isLetterDash c = true ∧ lettersDashes l = true := by
  simpa [lettersDashes] using h

theorem kebab_camel_aux :
    ∀ N, ∀ l : List Char, l.length ≤ N → lettersDashes l = true →
      kebabCase (camelCase l) = kebabCase l := by
  intro N
  induction N with
  | zero =>
    intro l hlen _
    have hl : l = [] := List.eq_nil_of_length_eq_zero (Nat.le_zero.mp hlen)
    subst hl; rfl
  | succ N ih =>
    intro l hlen hld
    match l with
    | [] => rfl
    | [c] =>
      rcases letterDash_cases (lettersDashes_cons hld).1 with hc | hc | hc
      · subst hc; rfl
      · rw [camelCase_one, if_neg (ne_dash_of_upper hc)]
      · rw [camelCase_one, if_neg (ne_dash_of_lower hc)]
    | c :: d :: rest =>
      have hlen2 : (d :: rest).length ≤ N := by
        simp only [List.length_cons] at hlen ⊢; omega
      have hlenr : rest.length ≤ N := by
        simp only [List.length_cons] at hlen; omega
      have hc := (lettersDashes_cons hld).1
      have hld2 := (lettersDashes_cons hld).2
      have hd := (lettersDashes_cons hld2).1
      have hldr := (lettersDashes_cons hld2).2
      rcases letterDash_cases hc with hc | hc | hc
      · subst hc
        rcases letterDash_cases hd with hd | hd | hd
        · subst hd
          rw [camelCase_cons2, if_pos rfl, if_pos rfl,
              kebabCase_cons2, if_neg (by decide), if_pos rfl, if_pos rfl]
          exact ih _ hlen2 hld2
        · -- dash then uppercase letter
          rw [camelCase_cons2, if_pos rfl, if_neg (ne_dash_of_upper hd),
              if_pos (wordChar_of_upper hd), toUpper_of_upper hd,
              kebabCase_cons_upper hd,
              kebabCase_cons2, if_neg (by decide), if_pos rfl,
              if_neg (ne_dash_of_upper hd), if_pos hd]
          rw [ih _ hlenr hldr]
        · -- dash then lowercase letter
          rw [camelCase_cons2, if_pos rfl, if_neg (ne_dash_of_lower hd),
              if_pos (wordChar_of_lower hd),
              kebabCase_cons_upper (isUpper_toUpper hd), toLower_toUpper hd,
              kebabCase_cons2, if_neg (by decide), if_pos rfl,
              if_neg (ne_dash_of_lower hd), if_neg (by simp [not_upper_of_lower hd]),
              kebabCase_cons_other (not_upper_of_lower hd) (ne_dash_of_lower hd)]
          rw [ih _ hlenr hldr]
      · rw [camelCase_cons_nondash (ne_dash_of_upper hc),
            kebabCase_cons_upper hc, kebabCase_cons_upper hc]
        rw [ih _ hlen2 hld2]
      · rw [camelCase_cons_nondash (ne_dash_of_lower hc),
            kebabCase_cons_other (not_upper_of_lower hc) (ne_dash_of_lower hc),
            kebabCase_cons_other (not_upper_of_lower hc) (ne_dash_of_lower hc)]
        rw [ih _ hlen2 hld2]

theorem camel_kebab_aux :
    ∀ N, ∀ l : List Char, l.length ≤ N → lettersDashes l = true →
      camelCase (kebabCase l) = camelCase l := by
  intro N
  induction N with
  | zero =>
    intro l hlen _
    have hl : l = [] := List.eq_nil_of_length_eq_zero (Nat.le_zero.mp hlen)
    subst hl; rfl
  | succ N ih =>
    intro l hlen hld
    match l with
    | [] => rfl
    | [c] =>
      rcases letterDash_cases (lettersDashes_cons hld).1 with hc | hc | hc
      · subst hc; rfl
      · rw [kebabCase_one, if_pos hc, camelCase_cons2, if_pos rfl,
            if_neg (ne_dash_of_lower (isLower_toLower hc)),
            if_pos (wordChar_of_lower (isLower_toLower hc)), toUpper_toLower hc,
            camelCase_one, if_neg (ne_dash_of_upper hc)]
        rfl
      · rw [kebabCase_one, if_neg (by simp [not_upper_of_lower hc]),
            if_neg (ne_dash_of_lower hc)]
    | c :: d :: rest =>
      have hlen2 : (d :: rest).length ≤ N := by
        simp only [List.length_cons] at hlen ⊢; omega
      have hlenr : rest.length ≤ N := by
        simp only [List.length_cons] at hlen; omega
      have hc := (lettersDashes_cons hld).1
      have hld2 := (lettersDashes_cons hld).2
      have hd := (lettersDashes_cons hld2).1
      have hldr := (lettersDashes_cons hld2).2
      rcases letterDash_cases hc with hc | hc | hc
      · subst hc
        rcases letterDash_cases hd with hd | hd | hd
        · subst hd
          rw [kebabCase_cons2, if_neg (by decide), if_pos rfl, if_pos rfl,
              camelCase_cons2, if_pos rfl, if_pos rfl]
          exact ih _ hlen2 hld2
        · -- dash then uppercase letter
          rw [kebabCase_cons2, if_neg (by decide), if_pos rfl,
              if_neg (ne_dash_of_upper hd), if_pos hd,
              camelCase_cons2, if_pos rfl,
              if_neg (ne_dash_of_lower (isLower_toLower hd)),
              if_pos (wordChar_of_lower (isLower_toLower hd)), toUpper_toLower hd,
              camelCase_cons2, if_pos rfl, if_neg (ne_dash_of_upper hd),
              if_pos (wordChar_of_upper hd), toUpper_of_upper hd]
          rw [ih _ hlenr hldr]
        · -- dash then lowercase letter
          rw [kebabCase_cons2, if_neg (by decide), if_pos rfl,
              if_neg (ne_dash_of_lower hd), if_neg (by simp [not_upper_of_lower hd]),
              kebabCase_cons_other (not_upper_of_lower hd) (ne_dash_of_lower hd),
              camelCase_cons2, if_pos rfl, if_neg (ne_dash_of_lower hd),
              if_pos (wordChar_of_lower hd),
              camelCase_cons2, if_pos rfl, if_neg (ne_dash_of_lower hd),
              if_pos (wordChar_of_lower hd)]
          rw [ih _ hlenr hldr]
      · rw [kebabCase_cons_upper hc, camelCase_cons2, if_pos rfl,
            if_neg (ne_dash_of_lower (isLower_toLower hc)),
            if_pos (wordChar_of_lower (isLower_toLower hc)), toUpper_toLower hc,
            camelCase_cons_nondash (ne_dash_of_upper hc)]
        rw [ih _ hlen2 hld2]
      · rw [kebabCase_cons_other (not_upper_of_lower hc) (ne_dash_of_lower hc),
            camelCase_cons_nondash (ne_dash_of_lower hc),
            camelCase_cons_nondash (ne_dash_of_lower hc)]
        rw [ih _ hlen2 hld2]

/-- The record returned by `CliUtils.getOptionFormat` (doc/IOptionFormat). -/
structure IOptionFormat where
  key : String
  camelCase : String
  kebabCase : String
deriving DecidableEq, Repr

/-- String-level camelCase conversion of `CliUtils.getOptionFormat`. -/
def camelStr (s : String) : String := ⟨camelCase s.data⟩

/-- String-level kebab-case conversion of `CliUtils.getOptionFormat`. -/
def kebabStr (s : String) : String := ⟨kebabCase s.data⟩

/-- `CliUtils.getOptionFormat`: the original key plus both canonical forms. -/
def getOptionFormat (key : String) : IOptionFormat :=
  { key := key, camelCase := camelStr key, kebabCase := kebabStr key }


/-! ## Claim theorems for getOptionFormat -/

/-- C1 (counterexample): the round-trip equations do not hold for every input
string: for the input "-5" the camel form is "5", whose kebab form "5"
differs from the kebab form "-5" of the input (a dash followed by a non-letter
word character is absorbed by the camel conversion but not by the kebab
conversion). -/
theorem roundtrip_cex :
    ¬(((getOptionFormat (getOptionFormat "-5").camelCase).kebabCase =
        (getOptionFormat "-5").kebabCase) ∧
      ((getOptionFormat (getOptionFormat "-5").kebabCase).camelCase =
        (getOptionFormat "-5").camelCase)) := by
  decide

/-- C1 (amended): for every input string consisting solely of ASCII letters
and dashes, the canonicalization operations of getOptionFormat satisfy both
round-trip equations: kebab(camel(x)) = kebab(x) and camel(kebab(x)) = camel(x). -/
theorem roundtrip_letters_dashes (s : String) (h : lettersDashes s.data = true) :
    ((getOptionFormat (getOptionFormat s).camelCase).kebabCase =
      (getOptionFormat s).kebabCase) ∧
    ((getOptionFormat (getOptionFormat s).kebabCase).camelCase =
      (getOptionFormat s).camelCase) := by
  constructor
  · exact congrArg String.mk (kebab_camel_aux s.data.length s.data (Nat.le_refl _) h)
  · exact congrArg String.mk (camel_kebab_aux s.data.length s.data (Nat.le_refl _) h)

/-- C1 (witness): the amended round-trip theorem applied at "hello-World-". -/
theorem roundtrip_letters_dashes_witness :
    lettersDashes ("hello-World-" : String).data = true ∧
    (((getOptionFormat (getOptionFormat "hello-World-").camelCase).kebabCase =
       (getOptionFormat "hello-World-").kebabCase) ∧
     ((getOptionFormat (getOptionFormat "hello-World-").kebabCase).camelCase =
       (getOptionFormat "hello-World-").camelCase)) :=
  ⟨by decide, roundtrip_letters_dashes "hello-World-" (by decide)⟩

/-- C2: getOptionFormat maps "helloWorld", "hello-world", "hello--------world"
and "hello-World-" to camel form "helloWorld" and kebab form "hello-world",
and always returns the original input unchanged in the key field. -/
theorem getOptionFormat_literals :
    getOptionFormat "helloWorld" =
      ⟨"helloWorld", "helloWorld", "hello-world"⟩ ∧
    getOptionFormat "hello-world" =
      ⟨"hello-world", "helloWorld", "hello-world"⟩ ∧
    getOptionFormat "hello--------world" =
      ⟨"hello--------world", "helloWorld", "hello-world"⟩ ∧
    getOptionFormat "hello-World-" =
      ⟨"hello-World-", "helloWorld", "hello-world"⟩ ∧
    ∀ key : String, (getOptionFormat key).key = key :=
  ⟨by decide, by decide, by decide, by decide, fun _ => rfl⟩

/-! ## CliUtils constants, getDashFormOfOption (part_000 lines 34-60) and
censorCLIArgs (part_000 lines 67-79) -/

/-- The parameters of an `ImperativeError`: a message plus optional
additional details. -/
structure ImperativeError where
  msg : String
  additionalDetails : Option String := none
deriving DecidableEq, Repr

/-- Placeholder used when censoring arguments. -/
def CENSOR_RESPONSE : String := "****"

/-- The fixed list of censored option names. -/
def CENSORED_OPTIONS : List String :=
  ["auth", "p", "pass", "password", "passphrase", "credentials",
   "authentication", "basic-auth", "basicAuth"]

/-- Modelled from the spec: `Constants.OPT_LONG_DASH` and
`Constants.OPT_SHORT_DASH` come from the constants module, which is not among
the sources; the spec pins them via DashForm("p") = "-p" and
DashForm("password") = "--password". -/
def OPT_LONG_DASH : String := "--"

/-- Modelled from the spec: see `OPT_LONG_DASH`. -/
def OPT_SHORT_DASH : String := "-"

/-- `CliUtils.getDashFormOfOption`; the `none` argument models a
null/undefined option name passed to the JS function. -/
def getDashFormOfOption (optionName : Option String) : Except ImperativeError String :=
  match optionName with
  | some s =>
    if s.length ≥ 1 then
      Except.ok ((if s.length > 1 then OPT_LONG_DASH else OPT_SHORT_DASH) ++ s)
    else
      Except.error
        ⟨"A null or blank option was supplied. Please correct the option definition.", none⟩
  | none =>
    Except.error
      ⟨"A null or blank option was supplied. Please correct the option definition.", none⟩

/-- C9: getDashFormOfOption prefixes a length-one name with one dash, a longer
name with two dashes, and fails with the configuration error for the empty
name and for an absent (null/undefined) name. -/
theorem getDashFormOfOption_spec :
    (∀ s : String, s.length = 1 → getDashFormOfOption (some s) = Except.ok ("-" ++ s)) ∧
    (∀ s : String, s.length > 1 → getDashFormOfOption (some s) = Except.ok ("--" ++ s)) ∧
    getDashFormOfOption (some "") =
      Except.error
        ⟨"A null or blank option was supplied. Please correct the option definition.", none⟩ ∧
    getDashFormOfOption none =
      Except.error
        ⟨"A null or blank option was supplied. Please correct the option definition.", none⟩ := by
  refine ⟨fun s h => ?_, fun s h => ?_, rfl, rfl⟩
  · rw [getDashFormOfOption, if_pos (by omega), if_neg (by omega)]
    rfl
  · rw [getDashFormOfOption, if_pos (by omega), if_pos h]
    rfl

/-- C9 (witness): the dash-form theorem applied at "p" and "password". -/
theorem getDashFormOfOption_spec_witness :
    ("p" : String).length = 1 ∧ getDashFormOfOption (some "p") = Except.ok "-p" ∧
    ("password" : String).length > 1 ∧
    getDashFormOfOption (some "password") = Except.ok "--password" :=
  ⟨by decide, getDashFormOfOption_spec.1 "p" (by decide),
   by decide, getDashFormOfOption_spec.2.1 "password" (by decide)⟩

/-- The dash form of a nonempty name, as a total function; on every censored
name it agrees with `getDashFormOfOption` (see `censored_dashForms_ok`). -/
def dashForm (s : String) : String :=
  (if s.length > 1 then OPT_LONG_DASH else OPT_SHORT_DASH) ++ s

theorem censored_dashForms_ok :
    CENSORED_OPTIONS.mapM (fun s => getDashFormOfOption (some s)) =
      Except.ok (CENSORED_OPTIONS.map dashForm) := rfl

/-- One iteration of the loop of `CliUtils.censorCLIArgs`: if the
dash-prefixed name occurs in the ORIGINAL args, the token after its first
occurrence is replaced in the accumulating copy, provided a following token
exists (`valueIndex < args.length - 1`). -/
def censorCLIStep (args : List String) (newArgs : List String) (value : String) :
    List String :=
  match args.findIdx? (· = value) with
  | some valueIndex =>
    if valueIndex < args.length - 1 then
      newArgs.set (valueIndex + 1) CENSOR_RESPONSE
    else newArgs
  | none => newArgs

/-- `CliUtils.censorCLIArgs`: fold the censoring step over the dash forms of
all censored options, starting from a copy of the input (the JS
`JSON.parse(JSON.stringify(args))` deep copy is the identity on the value
level; the input list itself is never modified, which in this pure model is
inherent). -/
def censorCLIArgs (args : List String) : List String :=
  (CENSORED_OPTIONS.map dashForm).foldl (censorCLIStep args) args

/-- Position `j` holds a censored value: `j` is the successor of the index of
the first occurrence of some censored dash-form in the original args, and a
token at `j` exists. -/
def censorHit (args : List String) (values : List String) (j : Nat) : Bool :=
  decide (1 ≤ j) && decide (j < args.length) &&
    values.any (fun v => args.findIdx? (· = v) == some (j - 1))

theorem censorHit_nil (args : List String) (j : Nat) : censorHit args [] j = false := by
  simp [censorHit]

theorem censorHit_cons_of (args : List String) (v : String) (vs : List String) (j : Nat)
    (h : censorHit args vs j = true) : censorHit args (v :: vs) j = true := by
  simp only [censorHit, List.any_cons, Bool.and_eq_true, Bool.or_eq_true] at h ⊢
  exact ⟨h.1, Or.inr h.2⟩

theorem censorHit_cons_true (args : List String) (v : String) (vs : List String) (j : Nat)
    (h1 : 1 ≤ j) (h2 : j < args.length)
    (h3 : args.findIdx? (· = v) = some (j - 1)) :
    censorHit args (v :: vs) j = true := by
  simp only [censorHit, List.any_cons, h3, Bool.and_eq_true, Bool.or_eq_true,
    decide_eq_true_eq]
  exact ⟨⟨h1, h2⟩, Or.inl (by simp)⟩

theorem censorHit_cons (args : List String) (v : String) (vs : List String) (j : Nat)
    (h : ¬(1 ≤ j ∧ j < args.length ∧ args.findIdx? (· = v) = some (j - 1))) :
    censorHit args (v :: vs) j = censorHit args vs j := by
  simp only [censorHit, List.any_cons]
  by_cases h1 : 1 ≤ j
  · by_cases h2 : j < args.length
    · have hne : (args.findIdx? (· = v) == some (j - 1)) = false := by
        rw [beq_eq_false_iff_ne]
        intro he
        exact h ⟨h1, h2, he⟩
      rw [hne, Bool.false_or]
    · simp [h2]
  · simp [h1]

theorem censorCLI_fold_char (values : List String) (args cur : List String)
    (hlen : cur.length = args.length) :
    (values.foldl (censorCLIStep args) cur).length = args.length ∧
    ∀ j : Nat, (values.foldl (censorCLIStep args) cur)[j]? =
      if censorHit args values j then some CENSOR_RESPONSE else cur[j]? := by
  induction values generalizing cur with
  | nil =>
    refine ⟨hlen, fun j => ?_⟩
    rw [censorHit_nil, if_neg (by simp)]
    rfl
  | cons v vs ih =>
    have hstep : (censorCLIStep args cur v).length = args.length := by
      unfold censorCLIStep
      cases hf : args.findIdx? (· = v) with
      | none => exact hlen
      | some i =>
        by_cases hi : i < args.length - 1
        · simp [hi, hlen]
        · simp [hi, hlen]
    obtain ⟨ihlen, ihval⟩ := ih (censorCLIStep args cur v) hstep
    refine ⟨by simpa using ihlen, fun j => ?_⟩
    rw [List.foldl_cons, ihval j]
    cases hf : args.findIdx? (· = v) with
    | none =>
      have hcur : censorCLIStep args cur v = cur := by
        unfold censorCLIStep
        rw [hf]
      have hhit : censorHit args (v :: vs) j = censorHit args vs j := by
        apply censorHit_cons
        rintro ⟨h1, h2, he⟩
        rw [hf] at he
        exact Option.noConfusion he
      rw [hcur, hhit]
    | some i =>
      have hibound : i < args.length := (List.findIdx?_eq_some_iff_findIdx_eq.mp hf).1
      by_cases hi : i < args.length - 1
      · have hcur : censorCLIStep args cur v = cur.set (i + 1) CENSOR_RESPONSE := by
          unfold censorCLIStep
          rw [hf]
          exact if_pos hi
        rw [hcur]
        by_cases hvs : censorHit args vs j = true
        · rw [if_pos hvs, if_pos (censorHit_cons_of args v vs j hvs)]
        · rw [if_neg hvs]
          by_cases hj : j = i + 1
          · subst hj
            rw [if_pos (censorHit_cons_true args v vs (i + 1) (by omega) (by omega)
                  (by rw [hf]; simp))]
            rw [List.getElem?_set, if_pos rfl, if_pos (by omega)]
          · rw [censorHit_cons args v vs j (by
                rintro ⟨h1, h2, he⟩
                rw [hf] at he
                injection he with hh
                omega)]
            rw [List.getElem?_set, if_neg (show ¬(i + 1 = j) by omega), if_neg hvs]
      · have hcur : censorCLIStep args cur v = cur := by
          unfold censorCLIStep
          rw [hf]
          exact if_neg hi
        have hhit : censorHit args (v :: vs) j = censorHit args vs j := by
          apply censorHit_cons
          rintro ⟨h1, h2, he⟩
          rw [hf] at he
          injection he with hh
          omega
        rw [hcur, hhit]

/-- C3: censorCLIArgs returns a sequence of the same length in which exactly
the positions immediately following the first occurrence of a censored
dash-prefixed name hold the placeholder (only when such a following token
exists), every other position holds the original token, and (concretely) the
spec example is redacted as stated. -/
theorem censorCLIArgs_spec (args : List String) :
    (censorCLIArgs args).length = args.length ∧
    (∀ j : Nat, (censorCLIArgs args)[j]? =
      if censorHit args (CENSORED_OPTIONS.map dashForm) j then some CENSOR_RESPONSE
      else args[j]?) ∧
    censorCLIArgs ["--password", "secret123", "--host", "x"] =
      ["--password", "****", "--host", "x"] := by
  obtain ⟨h1, h2⟩ :=
    censorCLI_fold_char (CENSORED_OPTIONS.map dashForm) args args rfl
  exact ⟨h1, h2, by decide⟩

/-! ## CliUtils.censorYargsArguments (part_000 lines 86-101)

The yargs arguments object is modelled as an association list of keys and
top-level values in insertion order.  The function first deep-copies the
object via `JSON.parse(JSON.stringify(args))`; on the copy, JS strict
equality (`===`) compares primitives by value and objects by reference, and
the JSON round trip materializes every (top-level) object value as a fresh
object, so two distinct entries of the copy are never reference-equal.
Freshness is modelled by re-tagging each entry's object value with the
position of the entry. -/

/-- A JSON-serializable top-level value of a yargs arguments object:
primitives carry their value, objects/arrays carry a reference tag plus their
structural content. -/
inductive JsValue where
  | str : String → JsValue
  | num : Int → JsValue
  | jsBool : Bool → JsValue
  | null : JsValue
  | obj : Nat → List (String × String) → JsValue
deriving DecidableEq, Repr

/-- JS strict equality (`===`) on top-level values: structural on primitives,
reference identity on objects. -/
def jsStrictEq (a b : JsValue) : Bool :=
  match a, b with
  | .obj r _, .obj r2 _ => r == r2
  | .obj _ _, _ => false
  | _, .obj _ _ => false
  | x, y => x == y

/-- Primitive (non-object) values. -/
def isPrimitive : JsValue → Bool
  | .obj _ _ => false
  | _ => true

abbrev ArgsObj := List (String × JsValue)

/-- The deep copy of the entries starting at position `i`: keys, order and
structural content are preserved, and each object value is re-tagged with its
position, making all object values of the copy pairwise reference-distinct. -/
def deepCopyFrom (i : Nat) : ArgsObj → ArgsObj
  | [] => []
  | (k, v) :: rest =>
    (k, match v with | .obj _ sh => .obj i sh | p => p) :: deepCopyFrom (i + 1) rest

/-- `JSON.parse(JSON.stringify(args))`. -/
def deepCopy (args : ArgsObj) : ArgsObj := deepCopyFrom 0 args

/-- Property lookup `o[k]`. -/
def getProp (o : ArgsObj) (k : String) : Option JsValue :=
  (o.find? (fun p => p.1 = k)).map (fun p => p.2)

/-- The placeholder as a value. -/
def censorVal : JsValue := .str CENSOR_RESPONSE

/-- The body of the outer loop of `CliUtils.censorYargsArguments` for one
`optionName` of `Object.keys(newArgs)`: when the key is censored, capture its
current value, overwrite that entry with the placeholder, then scan every key
and overwrite each entry whose value is strictly equal (`===`) to the
captured one. -/
def censorYargsStep (cur : ArgsObj) (optionName : String) : ArgsObj :=
  if CENSORED_OPTIONS.contains optionName then
    match getProp cur optionName with
    | some valueToCensor =>
      let cur1 := cur.map (fun p => if p.1 = optionName then (p.1, censorVal) else p)
      cur1.map (fun p => if jsStrictEq p.2 valueToCensor then (p.1, censorVal) else p)
    | none => cur
  else cur

/-- `CliUtils.censorYargsArguments`: deep-copy, then run the censoring step
for every key of the copy. -/
def censorYargsArguments (args : ArgsObj) : ArgsObj :=
  let newArgs := deepCopy args
  (newArgs.map Prod.fst).foldl censorYargsStep newArgs

/-- The final value of entry `(k, v)` of the copy `n`: the placeholder
exactly when `k` is censored or some censored entry of the copy holds a value
strictly equal to `v`; otherwise `v` unchanged. -/
def censorMark (n : ArgsObj) (k : String) (v : JsValue) : JsValue :=
  if CENSORED_OPTIONS.contains k ||
      n.any (fun p => CENSORED_OPTIONS.contains p.1 && jsStrictEq v p.2) then
    censorVal
  else v

/-- The value of entry `(k, v)` of the copy `n` after the outer loop has
processed the keys in `done`. -/
def censorMarkedBy (n : ArgsObj) (done : List String) (k : String) (v : JsValue) : JsValue :=
  if (CENSORED_OPTIONS.contains k && done.contains k) ||
      n.any (fun p =>
        done.contains p.1 && CENSORED_OPTIONS.contains p.1 && jsStrictEq v p.2) then
    censorVal
  else v

theorem jsStrictEq_trans {a b c : JsValue} (h1 : jsStrictEq a b = true)
    (h2 : jsStrictEq b c = true) : jsStrictEq a c = true := by
  cases a <;> cases b <;> cases c <;> simp_all [jsStrictEq]

theorem jsStrictEq_censorVal {v : JsValue} (h : jsStrictEq v censorVal = true) :
    v = censorVal := by
  cases v <;> simp_all [jsStrictEq, censorVal]

/-- The condition of `censorMark` as a proposition. -/
def MarkProp (n : ArgsObj) (k : String) (v : JsValue) : Prop :=
  k ∈ CENSORED_OPTIONS ∨ ∃ p ∈ n, p.1 ∈ CENSORED_OPTIONS ∧ jsStrictEq v p.2 = true

/-- The condition of `censorMarkedBy` as a proposition. -/
def MarkedProp (n : ArgsObj) (done : List String) (k : String) (v : JsValue) : Prop :=
  (k ∈ CENSORED_OPTIONS ∧ k ∈ done) ∨
  ∃ p ∈ n, p.1 ∈ done ∧ p.1 ∈ CENSORED_OPTIONS ∧ jsStrictEq v p.2 = true

theorem censorMark_pos {n : ArgsObj} {k : String} {v : JsValue} (h : MarkProp n k v) :
    censorMark n k v = censorVal := by
  unfold censorMark
  rw [if_pos]
  simpa [MarkProp, List.any_eq_true, and_assoc] using h

theorem censorMark_neg {n : ArgsObj} {k : String} {v : JsValue} (h : ¬MarkProp n k v) :
    censorMark n k v = v := by
  unfold censorMark
  rw [if_neg]
  intro hc
  exact h (by simpa [MarkProp, List.any_eq_true, and_assoc] using hc)

theorem censorMarkedBy_pos {n : ArgsObj} {done : List String} {k : String} {v : JsValue}
    (h : MarkedProp n done k v) : censorMarkedBy n done k v = censorVal := by
  unfold censorMarkedBy
  rw [if_pos]
  simpa [MarkedProp, List.any_eq_true, and_assoc] using h

theorem censorMarkedBy_neg {n : ArgsObj} {done : List String} {k : String} {v : JsValue}
    (h : ¬MarkedProp n done k v) : censorMarkedBy n done k v = v := by
  unfold censorMarkedBy
  rw [if_neg]
  intro hc
  exact h (by simpa [MarkedProp, List.any_eq_true, and_assoc] using hc)

theorem markedProp_nil (n : ArgsObj) (k : String) (v : JsValue) :
    ¬MarkedProp n [] k v := by
  rintro (⟨_, hk⟩ | ⟨p, _, hd, _, _⟩)
  · exact absurd hk (List.not_mem_nil k)
  · exact absurd hd (List.not_mem_nil p.1)

theorem markedProp_mono {n : ArgsObj} {done : List String} {k : String} {v : JsValue}
    (key : String) (h : MarkedProp n done k v) : MarkedProp n (done ++ [key]) k v := by
  rcases h with ⟨hc, hk⟩ | ⟨p, hp, hd, hc, he⟩
  · exact Or.inl ⟨hc, List.mem_append_left _ hk⟩
  · exact Or.inr ⟨p, hp, List.mem_append_left _ hd, hc, he⟩

theorem markedProp_append_notCensored {n : ArgsObj} {done : List String} {k : String}
    {v : JsValue} {key : String} (hkc : key ∉ CENSORED_OPTIONS) :
    MarkedProp n (done ++ [key]) k v ↔ MarkedProp n done k v := by
  constructor
  · rintro (⟨hc, hk⟩ | ⟨p, hp, hd, hc, he⟩)
    · rcases List.mem_append.mp hk with h | h
      · exact Or.inl ⟨hc, h⟩
      · rw [List.mem_singleton.mp h] at hc
        exact absurd hc hkc
    · rcases List.mem_append.mp hd with h | h
      · exact Or.inr ⟨p, hp, h, hc, he⟩
      · rw [List.mem_singleton.mp h] at hc
        exact absurd hc hkc
  · exact markedProp_mono key

theorem markedProp_append_key {n : ArgsObj} {done : List String} {k : String} {v : JsValue}
    {key : String} (hnd : (n.map Prod.fst).Nodup)
    {pk : String × JsValue} (hpk : pk ∈ n) (hpk1 : pk.1 = key)
    (hkc : key ∈ CENSORED_OPTIONS) (hkne : k ≠ key) :
    MarkedProp n (done ++ [key]) k v ↔ (MarkedProp n done k v ∨ jsStrictEq v pk.2 = true) := by
  constructor
  · rintro (⟨hc, hk⟩ | ⟨p, hp, hd, hc, he⟩)
    · rcases List.mem_append.mp hk with h | h
      · exact Or.inl (Or.inl ⟨hc, h⟩)
      · exact absurd (List.mem_singleton.mp h) hkne
    · rcases List.mem_append.mp hd with h | h
      · exact Or.inl (Or.inr ⟨p, hp, h, hc, he⟩)
      · have hpq : p = pk :=
          List.inj_on_of_nodup_map hnd hp hpk (by rw [List.mem_singleton.mp h, hpk1])
        rw [hpq] at he
        exact Or.inr he
  · rintro (h | he)
    · exact markedProp_mono key h
    · exact Or.inr ⟨pk, hpk,
        by rw [hpk1]; exact List.mem_append_right _ (List.mem_singleton_self key),
        by rw [hpk1]; exact hkc, he⟩

theorem markedProp_keys_iff {n : ArgsObj} {k : String} {v : JsValue}
    (hk : k ∈ n.map Prod.fst) :
    MarkedProp n (n.map Prod.fst) k v ↔ MarkProp n k v := by
  constructor
  · rintro (⟨hc, _⟩ | ⟨p, hp, _, hc, he⟩)
    · exact Or.inl hc
    · exact Or.inr ⟨p, hp, hc, he⟩
  · rintro (hc | ⟨p, hp, hc, he⟩)
    · exact Or.inl ⟨hc, hk⟩
    · exact Or.inr ⟨p, hp, List.mem_map_of_mem Prod.fst hp, hc, he⟩

/-- The heart of the censoring invariant: scanning an entry `p` (with a key
other than the censored `key` being processed) against the captured value of
the `key` entry produces exactly the marking with `key` added to the
processed set. -/
theorem censor_scan_step {n : ArgsObj} (hnd : (n.map Prod.fst).Nodup)
    {done : List String} {key : String}
    (hkc : key ∈ CENSORED_OPTIONS) (hkdone : key ∉ done)
    {pk : String × JsValue} (hpk : pk ∈ n) (hpk1 : pk.1 = key)
    {p : String × JsValue} (_hp : p ∈ n) (hne : p.1 ≠ key) :
    (if jsStrictEq (censorMarkedBy n done p.1 p.2) (censorMarkedBy n done key pk.2) = true
      then censorVal else censorMarkedBy n done p.1 p.2) =
    censorMarkedBy n (done ++ [key]) p.1 p.2 := by
  by_cases hu : MarkedProp n done p.1 p.2
  · rw [censorMarkedBy_pos hu, censorMarkedBy_pos (markedProp_mono key hu)]
    by_cases hw : jsStrictEq censorVal (censorMarkedBy n done key pk.2) = true
    · rw [if_pos hw]
    · rw [if_neg hw]
  · rw [censorMarkedBy_neg hu]
    by_cases hw : MarkedProp n done key pk.2
    · -- the captured value is already the placeholder
      rw [censorMarkedBy_pos hw]
      obtain ⟨q, hq, hqdone, hqcen, hqeq⟩ :
          ∃ q ∈ n, q.1 ∈ done ∧ q.1 ∈ CENSORED_OPTIONS ∧ jsStrictEq pk.2 q.2 = true := by
        rcases hw with ⟨_, hkd⟩ | hex
        · exact absurd hkd hkdone
        · exact hex
      by_cases hvc : jsStrictEq p.2 censorVal = true
      · have hv : p.2 = censorVal := jsStrictEq_censorVal hvc
        rw [if_pos hvc]
        by_cases h2 : MarkedProp n (done ++ [key]) p.1 p.2
        · rw [censorMarkedBy_pos h2]
        · rw [censorMarkedBy_neg h2, hv]
      · rw [if_neg hvc, censorMarkedBy_neg]
        rw [markedProp_append_key hnd hpk hpk1 hkc hne]
        rintro (h | heq)
        · exact hu h
        · exact hu (Or.inr ⟨q, hq, hqdone, hqcen, jsStrictEq_trans heq hqeq⟩)
    · rw [censorMarkedBy_neg hw]
      by_cases hs : jsStrictEq p.2 pk.2 = true
      · rw [if_pos hs, censorMarkedBy_pos
          ((markedProp_append_key hnd hpk hpk1 hkc hne).mpr (Or.inr hs))]
      · rw [if_neg hs, censorMarkedBy_neg]
        rw [markedProp_append_key hnd hpk hpk1 hkc hne]
        rintro (h | heq)
        · exact hu h
        · exact hs heq

theorem getProp_map_keyed (n : ArgsObj) (g : String × JsValue → JsValue) (k : String) :
    getProp (n.map fun p => (p.1, g p)) k = (n.find? (fun p => p.1 = k)).map g := by
  unfold getProp
  rw [List.find?_map, Option.map_map]
  rfl

theorem deepCopyFrom_map_fst (i : Nat) (l : ArgsObj) :
    (deepCopyFrom i l).map Prod.fst = l.map Prod.fst := by
  induction l generalizing i with
  | nil => rfl
  | cons p rest ih =>
    cases p
    simp [deepCopyFrom, ih]

theorem censorYargsStep_marked (n : ArgsObj) (hnd : (n.map Prod.fst).Nodup)
    (done : List String) (key : String) (hkey : key ∈ n.map Prod.fst)
    (hkdone : key ∉ done) :
    censorYargsStep (n.map fun p => (p.1, censorMarkedBy n done p.1 p.2)) key =
      n.map fun p => (p.1, censorMarkedBy n (done ++ [key]) p.1 p.2) := by
  by_cases hkc : key ∈ CENSORED_OPTIONS
  · obtain ⟨pk0, hpk0, hfst⟩ := List.mem_map.mp hkey
    have hsome : (n.find? (fun p => p.1 = key)).isSome :=
      List.find?_isSome.mpr ⟨pk0, hpk0, by simp [hfst]⟩
    obtain ⟨pk, hfind⟩ := Option.isSome_iff_exists.mp hsome
    have hpk : pk ∈ n := List.mem_of_find?_eq_some hfind
    have hpk1 : pk.1 = key := by simpa using List.find?_some hfind
    unfold censorYargsStep
    rw [if_pos (by simpa using hkc), getProp_map_keyed, hfind]
    simp only [Option.map_some']
    rw [List.map_map, List.map_map]
    apply List.map_congr_left
    intro p hp
    simp only [Function.comp_apply]
    by_cases hp1 : p.1 = key
    · rw [if_pos hp1]
      have hmark : censorMarkedBy n (done ++ [key]) p.1 p.2 = censorVal := by
        apply censorMarkedBy_pos
        rw [hp1]
        exact Or.inl ⟨hkc, List.mem_append_right _ (List.mem_singleton_self key)⟩
      rw [hmark]
      by_cases hcond : jsStrictEq censorVal (censorMarkedBy n done pk.1 pk.2) = true
      · rw [if_pos hcond]
      · rw [if_neg hcond]
    · rw [if_neg hp1]
      have hval := censor_scan_step hnd hkc hkdone hpk hpk1 hp hp1
      rw [hpk1]
      show (if jsStrictEq (censorMarkedBy n done p.1 p.2)
              (censorMarkedBy n done key pk.2) = true
            then (p.1, censorVal) else (p.1, censorMarkedBy n done p.1 p.2)) =
          (p.1, censorMarkedBy n (done ++ [key]) p.1 p.2)
      by_cases hcond :
          jsStrictEq (censorMarkedBy n done p.1 p.2) (censorMarkedBy n done key pk.2) = true
      · rw [if_pos hcond] at hval ⊢
        rw [← hval]
      · rw [if_neg hcond] at hval ⊢
        rw [← hval]
  · have hnc : ¬CENSORED_OPTIONS.contains key = true := by simpa using hkc
    unfold censorYargsStep
    rw [if_neg hnc]
    apply List.map_congr_left
    intro p hp
    by_cases hm : MarkedProp n done p.1 p.2
    · rw [censorMarkedBy_pos hm, censorMarkedBy_pos (markedProp_mono key hm)]
    · rw [censorMarkedBy_neg hm,
        censorMarkedBy_neg (fun h => hm ((markedProp_append_notCensored hkc).mp h))]

theorem censorYargs_fold (n : ArgsObj) (hnd : (n.map Prod.fst).Nodup) :
    ∀ suffix done, n.map Prod.fst = done ++ suffix →
      suffix.foldl censorYargsStep (n.map fun p => (p.1, censorMarkedBy n done p.1 p.2)) =
        n.map fun p => (p.1, censorMarkedBy n (n.map Prod.fst) p.1 p.2) := by
  intro suffix
  induction suffix with
  | nil =>
    intro done h
    rw [List.append_nil] at h
    rw [← h, List.foldl_nil]
  | cons key rest ih =>
    intro done h
    have hkey : key ∈ n.map Prod.fst := by
      rw [h]
      exact List.mem_append_right _ (List.mem_cons_self _ _)
    have hkdone : key ∉ done := by
      intro hk
      have hnd2 : (done ++ key :: rest).Nodup := h ▸ hnd
      exact (List.disjoint_of_nodup_append hnd2) hk (List.mem_cons_self _ _)
    rw [List.foldl_cons, censorYargsStep_marked n hnd done key hkey hkdone]
    exact ih (done ++ [key]) (by rw [h, List.append_assoc, List.singleton_append])

/-- Full characterization of `censorYargsArguments` on an arguments object
with distinct keys: keys and order are preserved and each entry of the deep
copy is marked by `censorMark`. -/
theorem censorYargs_char (args : ArgsObj) (hnd : (args.map Prod.fst).Nodup) :
    censorYargsArguments args =
      (deepCopy args).map fun p => (p.1, censorMark (deepCopy args) p.1 p.2) := by
  have hkeys : (deepCopy args).map Prod.fst = args.map Prod.fst :=
    deepCopyFrom_map_fst 0 args
  have hnd2 : ((deepCopy args).map Prod.fst).Nodup := by rw [hkeys]; exact hnd
  have hinit : (deepCopy args).map
      (fun p => (p.1, censorMarkedBy (deepCopy args) [] p.1 p.2)) = deepCopy args := by
    have hfun : (fun p : String × JsValue =>
        (p.1, censorMarkedBy (deepCopy args) [] p.1 p.2)) = fun p => p := by
      funext p
      rw [censorMarkedBy_neg (markedProp_nil (deepCopy args) p.1 p.2)]
    rw [hfun, List.map_id']
  have hfold := censorYargs_fold (deepCopy args) hnd2 ((deepCopy args).map Prod.fst) [] rfl
  rw [hinit] at hfold
  unfold censorYargsArguments
  rw [hfold]
  apply List.map_congr_left
  intro p hp
  have hpk : p.1 ∈ (deepCopy args).map Prod.fst := List.mem_map_of_mem Prod.fst hp
  by_cases hm : MarkProp (deepCopy args) p.1 p.2
  · rw [censorMarkedBy_pos ((markedProp_keys_iff hpk).mpr hm), censorMark_pos hm]
  · rw [censorMarkedBy_neg (fun h => hm ((markedProp_keys_iff hpk).mp h)),
      censorMark_neg hm]

/-- C4: on an arguments object with distinct keys, censorYargsArguments
returns the deep copy with, entry by entry, the value replaced by the
placeholder exactly when the key matches a censored name or the value is
identical (JS strict equality on the copy) to the original copied value of
some censored key; all other entries keep their values, and keys and their
order are preserved. -/
theorem censorYargsArguments_spec (args : ArgsObj) (hnd : (args.map Prod.fst).Nodup) :
    censorYargsArguments args =
      (deepCopy args).map fun p => (p.1, censorMark (deepCopy args) p.1 p.2) :=
  censorYargs_char args hnd

/-- C4 (witness): the redaction theorem applied to the spec example
`{password: "s3cr3t", pw: "s3cr3t", host: "x"}`: `password` is censored, `pw`
holds the identical primitive value, `host` is untouched. -/
theorem censorYargsArguments_spec_witness :
    ((([("password", JsValue.str "s3cr3t"), ("pw", JsValue.str "s3cr3t"),
        ("host", JsValue.str "x")] : ArgsObj).map Prod.fst).Nodup) ∧
    censorYargsArguments
        [("password", JsValue.str "s3cr3t"), ("pw", JsValue.str "s3cr3t"),
         ("host", JsValue.str "x")] =
      [("password", JsValue.str "****"), ("pw", JsValue.str "****"),
       ("host", JsValue.str "x")] := by
  refine ⟨by decide, ?_⟩
  rw [censorYargsArguments_spec _ (by decide)]
  decide

theorem deepCopyFrom_obj_ref_ge (j : Nat) (l : ArgsObj) {q : String × JsValue}
    (hq : q ∈ deepCopyFrom j l) {r : Nat} {sh : List (String × String)}
    (hobj : q.2 = JsValue.obj r sh) : j ≤ r := by
  induction l generalizing j with
  | nil => simp [deepCopyFrom] at hq
  | cons p rest ih =>
    obtain ⟨k, v⟩ := p
    simp only [deepCopyFrom, List.mem_cons] at hq
    rcases hq with hq | hq
    · cases v with
      | obj r0 sh0 =>
        rw [hq] at hobj
        simp at hobj
        omega
      | str x => rw [hq] at hobj; simp at hobj
      | num x => rw [hq] at hobj; simp at hobj
      | jsBool x => rw [hq] at hobj; simp at hobj
      | null => rw [hq] at hobj; simp at hobj
    · have := ih (j + 1) hq
      omega

theorem deepCopyFrom_obj_ref_inj (j : Nat) (l : ArgsObj) {p q : String × JsValue}
    (hp : p ∈ deepCopyFrom j l) (hq : q ∈ deepCopyFrom j l) {r : Nat}
    {sh sh2 : List (String × String)}
    (hpo : p.2 = JsValue.obj r sh) (hqo : q.2 = JsValue.obj r sh2) : p = q := by
  induction l generalizing j with
  | nil => simp [deepCopyFrom] at hp
  | cons e rest ih =>
    obtain ⟨k, v⟩ := e
    simp only [deepCopyFrom, List.mem_cons] at hp hq
    rcases hp with hp | hp <;> rcases hq with hq | hq
    · rw [hp, hq]
    · -- p is the head, q is in the tail: the tail refs exceed the head ref
      exfalso
      cases v with
      | obj r0 sh0 =>
        rw [hp] at hpo
        simp at hpo
        have := deepCopyFrom_obj_ref_ge (j + 1) rest hq hqo
        omega
      | str x => rw [hp] at hpo; simp at hpo
      | num x => rw [hp] at hpo; simp at hpo
      | jsBool x => rw [hp] at hpo; simp at hpo
      | null => rw [hp] at hpo; simp at hpo
    · exfalso
      cases v with
      | obj r0 sh0 =>
        rw [hq] at hqo
        simp at hqo
        have := deepCopyFrom_obj_ref_ge (j + 1) rest hp hpo
        omega
      | str x => rw [hq] at hqo; simp at hqo
      | num x => rw [hq] at hqo; simp at hqo
      | jsBool x => rw [hq] at hqo; simp at hqo
      | null => rw [hq] at hqo; simp at hqo
    · exact ih (j + 1) hp hq

theorem getProp_deepCopyFrom_obj (j : Nat) (l : ArgsObj) (k : String) (r : Nat)
    (sh : List (String × String)) (h : getProp l k = some (JsValue.obj r sh)) :
    ∃ i, getProp (deepCopyFrom j l) k = some (JsValue.obj i sh) := by
  induction l generalizing j with
  | nil => simp [getProp] at h
  | cons e rest ih =>
    obtain ⟨k0, v⟩ := e
    by_cases hk : k0 = k
    · subst hk
      unfold getProp at h ⊢
      rw [List.find?_cons_of_pos _ (by simp)] at h
      simp only [Option.map_some'] at h
      cases v with
      | obj r0 sh0 =>
        have hsh : sh0 = sh := by
          simp at h
          exact h.2
        refine ⟨j, ?_⟩
        unfold deepCopyFrom
        rw [List.find?_cons_of_pos _ (by simp)]
        simp [hsh]
      | str x => simp at h
      | num x => simp at h
      | jsBool x => simp at h
      | null => simp at h
    · unfold getProp at h ⊢
      rw [List.find?_cons_of_neg _ (by simp [hk])] at h
      obtain ⟨i, hi⟩ := ih (j + 1) h
      refine ⟨i, ?_⟩
      unfold deepCopyFrom
      rw [List.find?_cons_of_neg _ (by simp [hk])]
      exact hi

theorem getProp_deepCopy_obj (l : ArgsObj) (k : String) (r : Nat)
    (sh : List (String × String)) (h : getProp l k = some (JsValue.obj r sh)) :
    ∃ i, getProp (deepCopy l) k = some (JsValue.obj i sh) :=
  getProp_deepCopyFrom_obj 0 l k r sh h

theorem deepCopy_obj_ref_inj {l : ArgsObj} {p q : String × JsValue}
    (hp : p ∈ deepCopy l) (hq : q ∈ deepCopy l) {r : Nat}
    {sh sh2 : List (String × String)}
    (hpo : p.2 = JsValue.obj r sh) (hqo : q.2 = JsValue.obj r sh2) : p = q :=
  deepCopyFrom_obj_ref_inj 0 l hp hq hpo hqo

/-- C10: alias redaction compares by strict reference identity after the deep
copy, so it never fires for non-primitive values: when a censored key holds an
object, its own value is replaced by the placeholder, but any other,
non-censored key holding a structurally equal object — even the very same
object (`r = r2` is allowed) — keeps its (copied) object value. -/
theorem censorYargs_object_alias (args : ArgsObj) (hnd : (args.map Prod.fst).Nodup)
    (k k2 : String) (r r2 : Nat) (sh sh2 : List (String × String))
    (hck : k ∈ CENSORED_OPTIONS) (hck2 : k2 ∉ CENSORED_OPTIONS)
    (hv : getProp args k = some (JsValue.obj r sh))
    (hv2 : getProp args k2 = some (JsValue.obj r2 sh2)) :
    getProp (censorYargsArguments args) k = some censorVal ∧
    ∃ i, getProp (censorYargsArguments args) k2 = some (JsValue.obj i sh2) := by
  rw [censorYargs_char args hnd]
  obtain ⟨i, hgi⟩ := getProp_deepCopy_obj args k r sh hv
  obtain ⟨i2, hgi2⟩ := getProp_deepCopy_obj args k2 r2 sh2 hv2
  unfold getProp at hgi hgi2
  obtain ⟨qk, hfq, hq2⟩ := Option.map_eq_some'.mp hgi
  obtain ⟨qk2, hfq2, hq22⟩ := Option.map_eq_some'.mp hgi2
  have hqmem : qk ∈ deepCopy args := List.mem_of_find?_eq_some hfq
  have hq2mem : qk2 ∈ deepCopy args := List.mem_of_find?_eq_some hfq2
  have hqk1 : qk.1 = k := by simpa using List.find?_some hfq
  have hqk21 : qk2.1 = k2 := by simpa using List.find?_some hfq2
  constructor
  · rw [getProp_map_keyed, hfq, Option.map_some']
    have hmark : censorMark (deepCopy args) qk.1 qk.2 = censorVal := by
      apply censorMark_pos
      rw [hqk1]
      exact Or.inl hck
    rw [hmark]
  · refine ⟨i2, ?_⟩
    rw [getProp_map_keyed, hfq2, Option.map_some']
    have hmark : censorMark (deepCopy args) qk2.1 qk2.2 = qk2.2 := by
      apply censorMark_neg
      rintro (hc | ⟨p, hp, hpc, heq⟩)
      · rw [hqk21] at hc
        exact hck2 hc
      · rw [hq22] at heq
        cases hp2 : p.2 with
        | obj rp shp =>
          rw [hp2] at heq
          have hir : i2 = rp := by simpa [jsStrictEq] using heq
          have hpq : qk2 = p :=
            deepCopy_obj_ref_inj hq2mem hp hq22 (by rw [hp2, hir])
          rw [← hpq, hqk21] at hpc
          exact hck2 hpc
        | str x => rw [hp2] at heq; simp [jsStrictEq] at heq
        | num x => rw [hp2] at heq; simp [jsStrictEq] at heq
        | jsBool x => rw [hp2] at heq; simp [jsStrictEq] at heq
        | null => rw [hp2] at heq; simp [jsStrictEq] at heq
    rw [hmark, hq22]

/-- C10 (witness): the object-alias theorem applied to an input where the
censored key `password` and the plain key `pw` reference the very same object. -/
theorem censorYargs_object_alias_witness :
    ((("password" : String) ∈ CENSORED_OPTIONS) ∧ (("pw" : String) ∉ CENSORED_OPTIONS)) ∧
    (getProp (censorYargsArguments
        [("password", JsValue.obj 7 [("a", "b")]), ("pw", JsValue.obj 7 [("a", "b")])])
        "password" = some censorVal ∧
      ∃ i, getProp (censorYargsArguments
        [("password", JsValue.obj 7 [("a", "b")]), ("pw", JsValue.obj 7 [("a", "b")])])
        "pw" = some (JsValue.obj i [("a", "b")])) :=
  ⟨⟨by decide, by decide⟩,
    censorYargs_object_alias
      [("password", JsValue.obj 7 [("a", "b")]), ("pw", JsValue.obj 7 [("a", "b")])]
      (by decide) "password" "pw" 7 7 [("a", "b")] [("a", "b")]
      (by decide) (by decide) (by decide) (by decide)⟩

/-! ## CliUtils.extractOptValueFromProfiles (part_000 lines 119-147)

The external profile source (`CommandProfiles.get (type, false)`) is modelled
per the spec as a map from profile type to an optional profile object; a
`none` result is the null lookup the code guards against.  A profile is a
flat bag of own properties whose values may be the JS `undefined` (modelled
as an inner `none`): `hasOwnProperty` sees such a property while
`profile[name]` yields `undefined` for it. -/

abbrev Profile := List (String × Option JsValue)

/-- `profile.hasOwnProperty k`. -/
def profHasOwnProperty (p : Profile) (k : String) : Bool := p.any (fun e => e.1 = k)

/-- `profile[k]`: `none` when the property is absent or present as
`undefined`. -/
def profGet (p : Profile) (k : String) : Option JsValue :=
  ((p.find? (fun e => e.1 = k)).map (fun e => e.2)).join

/-- An option or positional definition; only the `name` field is consulted
here. -/
structure OptionDef where
  name : String
deriving DecidableEq, Repr

/-- `args.hasOwnProperty k` on an arguments object. -/
def hasOwnProperty (o : ArgsObj) (k : String) : Bool := o.any (fun e => e.1 = k)

/-- JS property assignment `o[k] = v`: overwrite in place when the key
exists, append otherwise. -/
def objSet (o : ArgsObj) (k : String) (v : JsValue) : ArgsObj :=
  if hasOwnProperty o k then o.map (fun e => if e.1 = k then (k, v) else e)
  else o ++ [(k, v)]

/-- `CliUtils.setOptionValue`: a two-entry fragment keyed by both canonical
spellings of the name (one entry when the spellings coincide). -/
def setOptionValue (optName : String) (value : JsValue) : ArgsObj :=
  objSet (objSet [] (camelStr optName) value) (kebabStr optName) value

/-- Spread merge `{...a, ...b}`: the keys of `a` in order with values
overridden by `b` where present, then the keys of `b` not in `a`, in order. -/
def spreadMerge (a b : ArgsObj) : ArgsObj :=
  (a.map fun e => (e.1, match getProp b e.1 with | some v => v | none => e.2)) ++
    b.filter (fun e => !hasOwnProperty a e.1)

/-- The inner per-option step of `extractOptValueFromProfiles`: extract the
value when the profile has the exact property, the accumulated args do not
already have the option name, and the value is defined. -/
def extractOptStep (profile : Profile) (args : ArgsObj) (opt : OptionDef) : ArgsObj :=
  if profHasOwnProperty profile opt.name && !hasOwnProperty args opt.name &&
      (profGet profile opt.name).isSome then
    match profGet profile opt.name with
    | some v => spreadMerge args (setOptionValue opt.name v)
    | none => args
  else args

/-- The ImperativeError raised for a missing profile type. -/
def profileNotFoundError (profileType : String) : ImperativeError :=
  ⟨"Profile of type \"" ++ profileType ++
      "\" does not exist within the loaded profiles for the command.",
    some "Command preparation was attempting to extract option values from profiles."⟩

/-- The per-profile body of the `profileOrder.forEach` loop. -/
def extractProfileStep (profiles : String → Option Profile) (options : List OptionDef)
    (args : ArgsObj) (profileType : String) : Except ImperativeError ArgsObj :=
  match profiles profileType with
  | none => Except.error (profileNotFoundError profileType)
  | some profile => Except.ok (options.foldl (extractOptStep profile) args)

/-- `CliUtils.extractOptValueFromProfiles` (the `forEach` with a thrown error
becomes a monadic fold over `Except`). -/
def extractOptValueFromProfiles (profiles : String → Option Profile)
    (profileOrder : List String) (options : List OptionDef) :
    Except ImperativeError ArgsObj :=
  profileOrder.foldlM (extractProfileStep profiles options) []

/-- The two profiles of the first-match counterexample: both define the
option named "a-". -/
def cexProfiles : String → Option Profile := fun t =>
  if t = "base" then some [("a-", some (JsValue.num 1))]
  else if t = "user" then some [("a-", some (JsValue.num 2))]
  else none

/-- C5 (counterexample): first-match-wins fails for an option whose name is
not one of its canonical spellings.  For the option named "a-" (canonical
forms are both "a"), the base profile sets the value 1, yet because the
accumulated result records only the canonical keys and the guard probes the
literal name "a-", the later user profile sets the value again, overriding it
with 2. -/
theorem extract_first_match_cex :
    extractOptValueFromProfiles cexProfiles ["base"] [⟨"a-"⟩] =
      Except.ok [("a", JsValue.num 1)] ∧
    extractOptValueFromProfiles cexProfiles ["base", "user"] [⟨"a-"⟩] =
      Except.ok [("a", JsValue.num 2)] :=
  ⟨rfl, rfl⟩

theorem hasOwn_iff_getProp_isSome (o : ArgsObj) (k : String) :
    hasOwnProperty o k = true ↔ (getProp o k).isSome = true := by
  unfold hasOwnProperty getProp
  cases hf : o.find? (fun e => e.1 = k) with
  | none =>
    rw [List.find?_eq_none] at hf
    simp only [Option.map_none', Option.isSome_none]
    rw [List.any_eq_true]
    constructor
    · rintro ⟨e, he, hp⟩
      exact absurd hp (by simpa using hf e he)
    · intro h
      exact absurd h (by simp)
  | some e =>
    simp only [Option.map_some', Option.isSome_some, iff_true]
    rw [List.any_eq_true]
    exact ⟨e, List.mem_of_find?_eq_some hf, by simpa using List.find?_some hf⟩

theorem setOptionValue_keys (n : String) (v : JsValue) :
    ∀ e ∈ setOptionValue n v, e.1 = camelStr n ∨ e.1 = kebabStr n := by
  intro e he
  have hin : objSet [] (camelStr n) v = [(camelStr n, v)] := rfl
  unfold setOptionValue at he
  rw [hin] at he
  unfold objSet at he
  by_cases hck : hasOwnProperty [(camelStr n, v)] (kebabStr n) = true
  · rw [if_pos hck] at he
    simp only [List.map_cons, List.map_nil, List.mem_cons, List.not_mem_nil,
      or_false] at he
    rw [he]
    by_cases hcc : camelStr n = kebabStr n
    · rw [if_pos hcc]
      exact Or.inr rfl
    · rw [if_neg hcc]
      exact Or.inl rfl
  · rw [if_neg hck] at he
    simp only [List.cons_append, List.nil_append, List.mem_cons,
      List.not_mem_nil, or_false] at he
    rcases he with he | he
    · rw [he]
      exact Or.inl rfl
    · rw [he]
      exact Or.inr rfl

theorem hasOwn_setOptionValue_false (n : String) (v : JsValue) (k : String)
    (h1 : k ≠ camelStr n) (h2 : k ≠ kebabStr n) :
    hasOwnProperty (setOptionValue n v) k = false := by
  unfold hasOwnProperty
  rw [List.any_eq_false]
  intro e he
  intro hc
  have hek : e.1 = k := by simpa using hc
  rcases setOptionValue_keys n v e he with h | h
  · rw [h] at hek
    exact h1 hek.symm
  · rw [h] at hek
    exact h2 hek.symm

theorem getProp_setOptionValue_none (n : String) (v : JsValue) (k : String)
    (h1 : k ≠ camelStr n) (h2 : k ≠ kebabStr n) :
    getProp (setOptionValue n v) k = none := by
  cases hg : getProp (setOptionValue n v) k with
  | none => rfl
  | some w =>
    have : hasOwnProperty (setOptionValue n v) k = true :=
      (hasOwn_iff_getProp_isSome _ k).mpr (by rw [hg]; rfl)
    rw [hasOwn_setOptionValue_false n v k h1 h2] at this
    exact Bool.noConfusion this

theorem hasOwn_spreadMerge_left (a b : ArgsObj) (k : String)
    (h : hasOwnProperty a k = true) : hasOwnProperty (spreadMerge a b) k = true := by
  unfold spreadMerge hasOwnProperty
  rw [List.any_append, List.any_map]
  unfold hasOwnProperty at h
  rw [show ((fun e : String × JsValue => decide (e.1 = k)) ∘ fun e =>
      (e.1, match getProp b e.1 with | some v => v | none => e.2)) =
      (fun e : String × JsValue => decide (e.1 = k)) from rfl, h]
  rfl

theorem getProp_append (a b : ArgsObj) (k : String) :
    getProp (a ++ b) k = (getProp a k).or (getProp b k) := by
  unfold getProp
  rw [List.find?_append]
  cases a.find? (fun e => e.1 = k) <;> simp

theorem getProp_spreadMerge_absent (a b : ArgsObj) (k : String)
    (hbo : hasOwnProperty b k = false) :
    getProp (spreadMerge a b) k = getProp a k := by
  have hbn : ∀ e ∈ b, ¬(e.1 = k) := by
    intro e he hek
    unfold hasOwnProperty at hbo
    rw [List.any_eq_false] at hbo
    have hne := hbo e he
    simp at hne
    exact hne hek
  have hb : getProp b k = none := by
    have hfn : b.find? (fun e => e.1 = k) = none := by
      rw [List.find?_eq_none]
      intro e he
      simpa using hbn e he
    unfold getProp
    rw [hfn]
    rfl
  have hfilter : getProp (b.filter fun e => !hasOwnProperty a e.1) k = none := by
    have hfn : (b.filter fun e => !hasOwnProperty a e.1).find?
        (fun e => e.1 = k) = none := by
      rw [List.find?_eq_none]
      intro e he
      simpa using hbn e (List.mem_of_mem_filter he)
    unfold getProp
    rw [hfn]
    rfl
  unfold spreadMerge
  rw [getProp_append, getProp_map_keyed, hfilter]
  cases hf : a.find? (fun e => e.1 = k) with
  | some e =>
    have hek : e.1 = k := by simpa using List.find?_some hf
    have hargs : getProp a k = some e.2 := by
      unfold getProp
      rw [hf]
      rfl
    rw [hargs]
    show some (match getProp b e.1 with | some v => v | none => e.2) = some e.2
    rw [hek, hb]
  | none =>
    have hargs : getProp a k = none := by
      unfold getProp
      rw [hf]
      rfl
    rw [hargs]
    rfl

/-- Processing one option of a later profile cannot touch the canonical
entries of an option whose literal name is already recorded, provided no
other option shares one of its canonical spellings. -/
theorem extractOptStep_preserves (profile : Profile) (args : ArgsObj)
    (o opt : OptionDef)
    (hset : hasOwnProperty args opt.name = true)
    (hdisj : o.name ≠ opt.name →
      camelStr o.name ≠ camelStr opt.name ∧ camelStr o.name ≠ kebabStr opt.name ∧
      kebabStr o.name ≠ camelStr opt.name ∧ kebabStr o.name ≠ kebabStr opt.name) :
    hasOwnProperty (extractOptStep profile args o) opt.name = true ∧
    getProp (extractOptStep profile args o) (camelStr opt.name) =
      getProp args (camelStr opt.name) ∧
    getProp (extractOptStep profile args o) (kebabStr opt.name) =
      getProp args (kebabStr opt.name) := by
  unfold extractOptStep
  by_cases hg : (profHasOwnProperty profile o.name && !hasOwnProperty args o.name &&
      (profGet profile o.name).isSome) = true
  · rw [if_pos hg]
    have hne : o.name ≠ opt.name := by
      intro he
      simp only [Bool.and_eq_true, Bool.not_eq_true'] at hg
      rw [he] at hg
      rw [hg.1.2] at hset
      exact Bool.noConfusion hset
    obtain ⟨d1, d2, d3, d4⟩ := hdisj hne
    cases hv : profGet profile o.name with
    | none => exact ⟨hset, rfl, rfl⟩
    | some v =>
      refine ⟨hasOwn_spreadMerge_left _ _ _ hset, ?_, ?_⟩
      · exact getProp_spreadMerge_absent _ _ _
          (hasOwn_setOptionValue_false o.name v _ (Ne.symm d1) (Ne.symm d3))
      · exact getProp_spreadMerge_absent _ _ _
          (hasOwn_setOptionValue_false o.name v _ (Ne.symm d2) (Ne.symm d4))
  · rw [if_neg hg]
    exact ⟨hset, rfl, rfl⟩

theorem extractOpts_fold_preserves (profile : Profile) (options : List OptionDef)
    (opt : OptionDef)
    (hdisj : ∀ o ∈ options, o.name ≠ opt.name →
      camelStr o.name ≠ camelStr opt.name ∧ camelStr o.name ≠ kebabStr opt.name ∧
      kebabStr o.name ≠ camelStr opt.name ∧ kebabStr o.name ≠ kebabStr opt.name) :
    ∀ args, hasOwnProperty args opt.name = true →
      hasOwnProperty (options.foldl (extractOptStep profile) args) opt.name = true ∧
      getProp (options.foldl (extractOptStep profile) args) (camelStr opt.name) =
        getProp args (camelStr opt.name) ∧
      getProp (options.foldl (extractOptStep profile) args) (kebabStr opt.name) =
        getProp args (kebabStr opt.name) := by
  induction options with
  | nil => exact fun args hset => ⟨hset, rfl, rfl⟩
  | cons o os ih =>
    intro args hset
    rw [List.foldl_cons]
    obtain ⟨h1, h2, h3⟩ := extractOptStep_preserves profile args o opt hset
      (hdisj o (List.mem_cons_self o os))
    obtain ⟨g1, g2, g3⟩ :=
      ih (fun o2 ho2 => hdisj o2 (List.mem_cons_of_mem o ho2))
        (extractOptStep profile args o) h1
    exact ⟨g1, g2.trans h2, g3.trans h3⟩

theorem extract_post_preserves (profiles : String → Option Profile)
    (options : List OptionDef) (opt : OptionDef)
    (hdisj : ∀ o ∈ options, o.name ≠ opt.name →
      camelStr o.name ≠ camelStr opt.name ∧ camelStr o.name ≠ kebabStr opt.name ∧
      kebabStr o.name ≠ camelStr opt.name ∧ kebabStr o.name ≠ kebabStr opt.name) :
    ∀ (post : List String) (args : ArgsObj), hasOwnProperty args opt.name = true →
      ∀ args2, post.foldlM (extractProfileStep profiles options) args = Except.ok args2 →
        hasOwnProperty args2 opt.name = true ∧
        getProp args2 (camelStr opt.name) = getProp args (camelStr opt.name) ∧
        getProp args2 (kebabStr opt.name) = getProp args (kebabStr opt.name) := by
  intro post
  induction post with
  | nil =>
    intro args hset args2 h
    rw [List.foldlM_nil] at h
    cases h
    exact ⟨hset, rfl, rfl⟩
  | cons t rest ih =>
    intro args hset args2 h
    rw [List.foldlM_cons] at h
    cases hpt : profiles t with
    | none =>
      have hstep : extractProfileStep profiles options args t =
          Except.error (profileNotFoundError t) := by
        unfold extractProfileStep
        rw [hpt]
      rw [hstep] at h
      exact Except.noConfusion h
    | some profile =>
      have hstep : extractProfileStep profiles options args t =
          Except.ok (options.foldl (extractOptStep profile) args) := by
        unfold extractProfileStep
        rw [hpt]
      rw [hstep] at h
      obtain ⟨h1, h2, h3⟩ := extractOpts_fold_preserves profile options opt hdisj args hset
      obtain ⟨g1, g2, g3⟩ := ih (options.foldl (extractOptStep profile) args) h1 args2 h
      exact ⟨g1, g2.trans h2, g3.trans h3⟩

/-- C5 (amended): first-match-wins across the profile order holds for every
option whose literal name ends up recorded in the accumulated result — which
is exactly the case when the name coincides with one of its canonical
spellings — provided no other option shares one of its canonical spellings:
once the option was set from the profiles of a prefix of the order, the
remaining profiles change neither canonical entry. -/
theorem extract_first_match_wins (profiles : String → Option Profile)
    (pre post : List String) (options : List OptionDef) (opt : OptionDef)
    (hdisj : ∀ o ∈ options, o.name ≠ opt.name →
      camelStr o.name ≠ camelStr opt.name ∧ camelStr o.name ≠ kebabStr opt.name ∧
      kebabStr o.name ≠ camelStr opt.name ∧ kebabStr o.name ≠ kebabStr opt.name)
    (args1 : ArgsObj)
    (h1 : extractOptValueFromProfiles profiles pre options = Except.ok args1)
    (hset : hasOwnProperty args1 opt.name = true)
    (args2 : ArgsObj)
    (h2 : extractOptValueFromProfiles profiles (pre ++ post) options = Except.ok args2) :
    getProp args2 (camelStr opt.name) = getProp args1 (camelStr opt.name) ∧
    getProp args2 (kebabStr opt.name) = getProp args1 (kebabStr opt.name) := by
  unfold extractOptValueFromProfiles at h1 h2
  rw [List.foldlM_append, h1] at h2
  have h2b : post.foldlM (extractProfileStep profiles options) args1 =
      Except.ok args2 := h2
  exact (extract_post_preserves profiles options opt hdisj post args1 hset args2 h2b).2

/-- The profiles of the first-match witness: base and user both define
`host`. -/
def hostProfiles : String → Option Profile := fun t =>
  if t = "base" then some [("host", some (JsValue.num 1))]
  else if t = "user" then some [("host", some (JsValue.num 2))]
  else none

/-- C5 (witness): with `profileOrder = ["base", "user"]` and both profiles
defining `host` (a canonical name), the base profile wins: the user profile
does not override the stored value. -/
theorem extract_first_match_wins_witness :
    (∀ o ∈ [OptionDef.mk "host"], o.name ≠ (OptionDef.mk "host").name →
      camelStr o.name ≠ camelStr "host" ∧ camelStr o.name ≠ kebabStr "host" ∧
      kebabStr o.name ≠ camelStr "host" ∧ kebabStr o.name ≠ kebabStr "host") ∧
    extractOptValueFromProfiles hostProfiles ["base"] [OptionDef.mk "host"] =
      Except.ok [("host", JsValue.num 1)] ∧
    hasOwnProperty [("host", JsValue.num 1)] "host" = true ∧
    extractOptValueFromProfiles hostProfiles (["base"] ++ ["user"]) [OptionDef.mk "host"] =
      Except.ok [("host", JsValue.num 1)] ∧
    (getProp [("host", JsValue.num 1)] (camelStr "host") =
        getProp [("host", JsValue.num 1)] (camelStr "host") ∧
      getProp [("host", JsValue.num 1)] (kebabStr "host") =
        getProp [("host", JsValue.num 1)] (kebabStr "host")) :=
  ⟨by decide, rfl, by decide, rfl,
    extract_first_match_wins hostProfiles ["base"] ["user"] [OptionDef.mk "host"]
      (OptionDef.mk "host") (by decide) [("host", JsValue.num 1)] rfl (by decide)
      [("host", JsValue.num 1)] rfl⟩

theorem extract_fold_missing (profiles : String → Option Profile)
    (options : List OptionDef) :
    ∀ (order : List String) (init : ArgsObj) (pt : String), pt ∈ order →
      profiles pt = none →
      ∃ pt2, pt2 ∈ order ∧ profiles pt2 = none ∧
        order.foldlM (extractProfileStep profiles options) init =
          Except.error (profileNotFoundError pt2) := by
  intro order
  induction order with
  | nil =>
    intro init pt hmem _
    exact absurd hmem (List.not_mem_nil pt)
  | cons t rest ih =>
    intro init pt hmem hnone
    cases hpt : profiles t with
    | none =>
      refine ⟨t, List.mem_cons_self t rest, hpt, ?_⟩
      rw [List.foldlM_cons]
      have hstep : extractProfileStep profiles options init t =
          Except.error (profileNotFoundError t) := by
        unfold extractProfileStep
        rw [hpt]
      rw [hstep]
      rfl
    | some profile =>
      have hmem2 : pt ∈ rest := by
        rcases List.mem_cons.mp hmem with he | hr
        · rw [he, hpt] at hnone
          exact Option.noConfusion hnone
        · exact hr
      obtain ⟨pt2, hptm, hptn, heq⟩ :=
        ih (options.foldl (extractOptStep profile) init) pt hmem2 hnone
      refine ⟨pt2, List.mem_cons_of_mem t hptm, hptn, ?_⟩
      rw [List.foldlM_cons]
      have hstep : extractProfileStep profiles options init t =
          Except.ok (options.foldl (extractOptStep profile) init) := by
        unfold extractProfileStep
        rw [hpt]
      rw [hstep]
      exact heq

/-- C6: whenever some profile type named in the order has a null lookup
result, extractOptValueFromProfiles fails with the ProfileNotFound
ImperativeError — whose message names a missing profile type and whose
additional details identify the operation — and returns no partial result
(the error aborts the whole call). -/
theorem extractOptValueFromProfiles_missing (profiles : String → Option Profile)
    (order : List String) (options : List OptionDef) (pt : String)
    (hmem : pt ∈ order) (hnone : profiles pt = none) :
    ∃ pt2, pt2 ∈ order ∧ profiles pt2 = none ∧
      extractOptValueFromProfiles profiles order options =
        Except.error (profileNotFoundError pt2) :=
  extract_fold_missing profiles options order [] pt hmem hnone

/-- C6 (witness): the missing-profile theorem applied at a profile order
naming the unloaded type "zosmf". -/
theorem extractOptValueFromProfiles_missing_witness :
    ("zosmf" ∈ ["base", "zosmf"]) ∧ cexProfiles "zosmf" = none ∧
    ∃ pt2, pt2 ∈ ["base", "zosmf"] ∧ cexProfiles pt2 = none ∧
      extractOptValueFromProfiles cexProfiles ["base", "zosmf"] [OptionDef.mk "a-"] =
        Except.error (profileNotFoundError pt2) :=
  ⟨by decide, rfl,
    extractOptValueFromProfiles_missing cexProfiles ["base", "zosmf"]
      [OptionDef.mk "a-"] "zosmf" (by decide) rfl⟩

/-! ## CliUtils.extractEnvForOptions and getEnvValForOption
(part_000 lines 168-232) -/

/-- `CliUtils.getEnvValForOption`: the source computes the option formats and
then — per its own todo comments — never forms an environment-variable name
nor reads the environment; it returns null unconditionally. -/
def getEnvValForOption (cmdName : String) (camelOrKababOption : String) : Option String :=
  let optChoices := getOptionFormat camelOrKababOption
  none

/-- `CliUtils.extractEnvForOptions`: for each option with a non-null
environment value the source calls setOptionValue but discards the returned
fragment (the call is a bare expression statement), so the `args` object it
returns is never extended. -/
def extractEnvForOptions (envPrefix : String) (options : List OptionDef) : ArgsObj :=
  options.foldl
    (fun args opt =>
      match getEnvValForOption envPrefix opt.name with
      | some envValue =>
        let keys := setOptionValue opt.name (JsValue.str envValue)
        args
      | none => args)
    []

/-- C7 (code evaluated at the failing inputs): extractEnvForOptions returns
the empty object for every input — getEnvValForOption is a stub that always
returns null, and even a non-null value would be dropped because the
setOptionValue result is discarded — contradicting the function's own
documentation and the claimed contract. -/
theorem extractEnvForOptions_always_empty :
    (∀ (envPrefix : String) (options : List OptionDef),
      extractEnvForOptions envPrefix options = []) ∧
    (∀ (cmdName opt : String), getEnvValForOption cmdName opt = none) := by
  refine ⟨fun envPrefix options => ?_, fun _ _ => rfl⟩
  have hfold : ∀ (opts : List OptionDef) (init : ArgsObj),
      opts.foldl
        (fun args opt =>
          match getEnvValForOption envPrefix opt.name with
          | some envValue =>
            let keys := setOptionValue opt.name (JsValue.str envValue)
            args
          | none => args)
        init = init := by
    intro opts
    induction opts with
    | nil => intro init; rfl
    | cons o os ih =>
      intro init
      rw [List.foldl_cons]
      exact ih init
  exact hfold options []

/-! ## YargsConfigurer.configure — nearest-command search
(src/packages/cmd/src/yargs/YargsConfigurer.ts lines 103-123) -/

/-- Levenshtein edit distance, as computed by the `levenshtein` npm package:
unit-cost insertions, deletions and substitutions. -/
def lev : List Char → List Char → Nat
  | [], t => t.length
  | s, [] => s.length
  | a :: s, b :: t =>
    if a = b then lev s t
    else 1 + min (lev (a :: s) t) (min (lev s (b :: t)) (lev s t))
termination_by s t => s.length + t.length
decreasing_by
  all_goals simp
  all_goals omega

/-- `new lev(attemptedCommand, command.fullName).distance`. -/
def levStr (a b : String) : Nat := lev a.data b.data

/-- `command.fullName.trim().length === 0`: the string has only whitespace. -/
def isBlank (s : String) : Bool := s.data.all (fun c => c.isWhitespace)

/-- One iteration of the search loop: skip blank fullNames, and update the
tracked minimum and candidate only on a strictly smaller distance. -/
def nearestStep (attemptedCommand : String) (acc : Nat × Option String)
    (command : String) : Nat × Option String :=
  if isBlank command then acc
  else if levStr attemptedCommand command < acc.1 then
    (levStr attemptedCommand command, some command)
  else acc

/-- The search over the flattened tree, starting from the sentinel 999999 and
an undefined `closestCommand`. -/
def nearestSearch (attemptedCommand : String) (commandTree : List String) :
    Nat × Option String :=
  commandTree.foldl (nearestStep attemptedCommand) (999999, none)

/-- A command tree node: a name and children (aliases play no role in the
nearest-match search). -/
inductive CommandNode where
  | node : String → List CommandNode → CommandNode

mutual

/-- Modelled from the spec: `CommandUtils.flattenCommandTree` is not among
the sources; per the spec the tree is flattened depth-first into entries
whose fullName is the space-joined path of names from the root, skipping the
synthetic root. -/
def flattenFrom : String → CommandNode → List String
  | pre, .node name children =>
    let full := if pre = "" then name else pre ++ " " ++ name
    full :: flattenList full children

/-- Modelled from the spec: see `flattenFrom`. -/
def flattenList : String → List CommandNode → List String
  | _, [] => []
  | pre, c :: cs => flattenFrom pre c ++ flattenList pre cs

end

/-- Modelled from the spec: see `flattenFrom`; the synthetic root itself
contributes no entry. -/
def flattenCommandTree : CommandNode → List String
  | .node _ children => flattenList "" children

/-- The running minimum the loop maintains over the non-blank entries. -/
def minDist (a : String) (es : List String) (m0 : Nat) : Nat :=
  (es.filter (fun e => !isBlank e)).foldl (fun m e => min m (levStr a e)) m0

theorem fold_min_le (a : String) :
    ∀ (l : List String) (m : Nat), l.foldl (fun m e => min m (levStr a e)) m ≤ m := by
  intro l
  induction l with
  | nil => intro m; exact Nat.le_refl m
  | cons e es ih =>
    intro m
    rw [List.foldl_cons]
    exact Nat.le_trans (ih (min m (levStr a e))) (Nat.min_le_left _ _)

theorem fold_min_le_mem (a : String) :
    ∀ (l : List String) (m : Nat) (e : String), e ∈ l →
      l.foldl (fun m e => min m (levStr a e)) m ≤ levStr a e := by
  intro l
  induction l with
  | nil =>
    intro m e he
    exact absurd he (List.not_mem_nil e)
  | cons x xs ih =>
    intro m e he
    rw [List.foldl_cons]
    rcases List.mem_cons.mp he with he | he
    · rw [he]
      exact Nat.le_trans (fold_min_le a xs _) (Nat.min_le_right _ _)
    · exact ih _ e he

theorem nearest_fold_char (a : String) :
    ∀ (es : List String) (m0 : Nat) (c0 : Option String),
      es.foldl (nearestStep a) (m0, c0) =
        (minDist a es m0,
          if minDist a es m0 < m0 then
            (es.filter (fun e => !isBlank e)).find?
              (fun e => levStr a e == minDist a es m0)
          else c0) := by
  intro es
  induction es with
  | nil =>
    intro m0 c0
    rw [List.foldl_nil]
    have hm : minDist a [] m0 = m0 := rfl
    rw [hm, if_neg (Nat.lt_irrefl m0)]
  | cons e es ih =>
    intro m0 c0
    rw [List.foldl_cons]
    by_cases hb : isBlank e = true
    · have hstep : nearestStep a (m0, c0) e = (m0, c0) := by
        unfold nearestStep
        rw [if_pos hb]
      have hfilter : (e :: es).filter (fun e => !isBlank e) =
          es.filter (fun e => !isBlank e) := by
        rw [List.filter_cons_of_neg (by simp [hb])]
      have hmd : minDist a (e :: es) m0 = minDist a es m0 := by
        unfold minDist
        rw [hfilter]
      rw [hstep, ih, hmd, hfilter]
    · have hbf : isBlank e = false := Bool.eq_false_iff.mpr hb
      have hvb : (!isBlank e) = true := by
        rw [hbf]
        rfl
      have hfilter : (e :: es).filter (fun e => !isBlank e) =
          e :: es.filter (fun e => !isBlank e) :=
        List.filter_cons_of_pos hvb
      have hmd : ∀ m, minDist a (e :: es) m = minDist a es (min m (levStr a e)) := by
        intro m
        unfold minDist
        rw [hfilter, List.foldl_cons]
      by_cases hlt : levStr a e < m0
      · have hstep : nearestStep a (m0, c0) e = (levStr a e, some e) := by
          unfold nearestStep
          rw [if_neg hb, if_pos hlt]
        have hmin : min m0 (levStr a e) = levStr a e := Nat.min_eq_right (Nat.le_of_lt hlt)
        rw [hstep, ih, hmd, hmin]
        have hMle : minDist a es (levStr a e) ≤ levStr a e := fold_min_le a _ _
        have hMlt : minDist a es (levStr a e) < m0 := Nat.lt_of_le_of_lt hMle hlt
        rw [if_pos hMlt]
        by_cases hM : minDist a es (levStr a e) < levStr a e
        · rw [if_pos hM, hfilter, List.find?_cons_of_neg]
          simp only [beq_iff_eq, decide_eq_true_eq]
          omega
        · have hMeq : minDist a es (levStr a e) = levStr a e := Nat.le_antisymm hMle (Nat.le_of_not_lt hM)
          rw [if_neg hM, hfilter, List.find?_cons_of_pos]
          simp only [beq_iff_eq, decide_eq_true_eq]
          omega
      · have hstep : nearestStep a (m0, c0) e = (m0, c0) := by
          unfold nearestStep
          rw [if_neg hb, if_neg hlt]
        have hmin : min m0 (levStr a e) = m0 := Nat.min_eq_left (Nat.le_of_not_lt hlt)
        rw [hstep, ih, hmd, hmin]
        by_cases hM : minDist a es m0 < m0
        · rw [if_pos hM, if_pos hM, hfilter, List.find?_cons_of_neg]
          simp only [beq_iff_eq, decide_eq_true_eq]
          omega
        · rw [if_neg hM, if_neg hM]

theorem fold_min_cases (a : String) :
    ∀ (l : List String) (m : Nat),
      l.foldl (fun m e => min m (levStr a e)) m = m ∨
      ∃ e ∈ l, levStr a e = l.foldl (fun m e => min m (levStr a e)) m := by
  intro l
  induction l with
  | nil => intro m; exact Or.inl rfl
  | cons x xs ih =>
    intro m
    have hfold : (x :: xs).foldl (fun m e => min m (levStr a e)) m =
        xs.foldl (fun m e => min m (levStr a e)) (min m (levStr a x)) := by
      rw [List.foldl_cons]
    rcases ih (min m (levStr a x)) with h | ⟨e, he, hfe⟩
    · by_cases hxm : m ≤ levStr a x
      · rw [Nat.min_eq_left hxm] at h
        exact Or.inl (by rw [hfold, Nat.min_eq_left hxm]; exact h)
      · refine Or.inr ⟨x, List.mem_cons_self x xs, ?_⟩
        rw [hfold, Nat.min_eq_right (Nat.le_of_not_le hxm)]
        rw [Nat.min_eq_right (Nat.le_of_not_le hxm)] at h
        exact h.symm
    · exact Or.inr ⟨e, List.mem_cons_of_mem x he, by rw [hfold]; exact hfe⟩

/-- C8 (amended): the nearest-match search considers exactly the non-blank
flattened entries; the tracked minimum is a lower bound on every candidate
distance; a selected candidate is a non-blank entry of minimum distance,
below the 999999 sentinel, and specifically the first such entry in traversal
order (later equal-distance candidates never overwrite it); and no candidate
is selected only when every non-blank entry is at least the sentinel away. -/
theorem nearestSearch_minimum (attempted : String) (root : CommandNode) :
    (∀ e ∈ flattenCommandTree root, isBlank e = false →
      (nearestSearch attempted (flattenCommandTree root)).1 ≤ levStr attempted e) ∧
    ((nearestSearch attempted (flattenCommandTree root)).2 = none →
      ∀ e ∈ flattenCommandTree root, isBlank e = false →
        999999 ≤ levStr attempted e) ∧
    (∀ name, (nearestSearch attempted (flattenCommandTree root)).2 = some name →
      (nearestSearch attempted (flattenCommandTree root)).1 < 999999 ∧
      isBlank name = false ∧ name ∈ flattenCommandTree root ∧
      levStr attempted name = (nearestSearch attempted (flattenCommandTree root)).1 ∧
      (nearestSearch attempted (flattenCommandTree root)).2 =
        ((flattenCommandTree root).filter (fun e => !isBlank e)).find?
          (fun e => levStr attempted e ==
            (nearestSearch attempted (flattenCommandTree root)).1)) := by
  have hN : nearestSearch attempted (flattenCommandTree root) =
      (minDist attempted (flattenCommandTree root) 999999,
        if minDist attempted (flattenCommandTree root) 999999 < 999999 then
          ((flattenCommandTree root).filter (fun e => !isBlank e)).find?
            (fun e => levStr attempted e ==
              minDist attempted (flattenCommandTree root) 999999)
        else none) :=
    nearest_fold_char attempted (flattenCommandTree root) 999999 none
  have hle : ∀ e ∈ flattenCommandTree root, isBlank e = false →
      minDist attempted (flattenCommandTree root) 999999 ≤ levStr attempted e := by
    intro e he hbe
    exact fold_min_le_mem attempted _ _ e
      (List.mem_filter.mpr ⟨he, by rw [hbe]; rfl⟩)
  by_cases hcond : minDist attempted (flattenCommandTree root) 999999 < 999999
  · rw [if_pos hcond] at hN
    refine ⟨?_, ?_, ?_⟩
    · intro e he hbe
      rw [hN]
      exact hle e he hbe
    · intro hnone
      exfalso
      rw [hN] at hnone
      have hf : ((flattenCommandTree root).filter (fun e => !isBlank e)).find?
          (fun e => levStr attempted e ==
            minDist attempted (flattenCommandTree root) 999999) = none := hnone
      rcases fold_min_cases attempted
          ((flattenCommandTree root).filter fun e => !isBlank e) 999999 with h | ⟨e, he, hfe⟩
      · exact absurd h (Nat.ne_of_lt hcond)
      · have hsome : (((flattenCommandTree root).filter (fun e => !isBlank e)).find?
            (fun e => levStr attempted e ==
              minDist attempted (flattenCommandTree root) 999999)).isSome = true :=
          List.find?_isSome.mpr ⟨e, he, by simpa using hfe⟩
        rw [hf] at hsome
        exact Bool.noConfusion hsome
    · intro name hsome
      rw [hN] at hsome
      have hf : ((flattenCommandTree root).filter (fun e => !isBlank e)).find?
          (fun e => levStr attempted e ==
            minDist attempted (flattenCommandTree root) 999999) = some name := hsome
      have hmem := List.mem_of_find?_eq_some hf
      have heq : levStr attempted name =
          minDist attempted (flattenCommandTree root) 999999 := by
        simpa using List.find?_some hf
      obtain ⟨hmem2, hnb⟩ := List.mem_filter.mp hmem
      refine ⟨by rw [hN]; exact hcond, by simpa using hnb, hmem2,
        by rw [hN]; exact heq, by rw [hN]⟩
  · rw [if_neg hcond] at hN
    refine ⟨?_, ?_, ?_⟩
    · intro e he hbe
      rw [hN]
      exact hle e he hbe
    · intro _ e he hbe
      exact Nat.le_trans (Nat.le_of_not_lt hcond) (hle e he hbe)
    · intro name hsome
      rw [hN] at hsome
      exact Option.noConfusion hsome

theorem lev_single_replicate (n : Nat) : lev ['a'] (List.replicate (n + 1) 'a') = n := by
  rw [List.replicate_succ]
  simp [lev, List.length_replicate]

/-- The command tree whose only command has a fullName of 1000001 characters. -/
def monsterTree : CommandNode :=
  CommandNode.node "root" [CommandNode.node (String.mk (List.replicate 1000001 'a')) []]

/-- C8 (counterexample): for the tree whose only (non-blank) command name is
a million characters long and the entered text "a", every candidate distance
reaches the 999999 sentinel, so the strictly-less update never fires and no
nearest entry is selected at all — the search does not select an entry of
minimum distance for every tree and entered text. -/
theorem nearestSearch_sentinel_cex :
    (∃ e ∈ flattenCommandTree monsterTree, isBlank e = false) ∧ ("a" : String) ≠ "" ∧
    (nearestSearch "a" (flattenCommandTree monsterTree)).2 = none := by
  have hflat : flattenCommandTree monsterTree =
      [String.mk (List.replicate 1000001 'a')] := rfl
  have hnb : isBlank (String.mk (List.replicate 1000001 'a')) = false := by
    show (List.replicate 1000001 'a').all (fun c => c.isWhitespace) = false
    rw [List.replicate_succ, List.all_cons,
      show ('a').isWhitespace = false from by decide, Bool.false_and]
  have hlev : levStr "a" (String.mk (List.replicate 1000001 'a')) = 1000000 := by
    show lev ['a'] (List.replicate 1000001 'a') = 1000000
    exact lev_single_replicate 1000000
  have hsearch : nearestSearch "a" (flattenCommandTree monsterTree) = (999999, none) := by
    rw [hflat]
    unfold nearestSearch
    rw [List.foldl_cons, List.foldl_nil]
    unfold nearestStep
    rw [hnb, hlev]
    simp
  refine ⟨⟨String.mk (List.replicate 1000001 'a'), ?_, hnb⟩, by decide, ?_⟩
  · rw [hflat]
    exact List.mem_singleton_self _
  · rw [hsearch]

/-- The witness command tree. -/
def zosTree : CommandNode :=
  CommandNode.node "root"
    [CommandNode.node "zosmf" [CommandNode.node "check" [], CommandNode.node "files" []]]

/-- C8 (witness): the minimum property of the search applied to a small tree
and the entered text "zosmff chk". -/
theorem nearestSearch_minimum_witness :
    ("zosmf check" ∈ flattenCommandTree zosTree) ∧ isBlank "zosmf check" = false ∧
    (nearestSearch "zosmff chk" (flattenCommandTree zosTree)).1 ≤
      levStr "zosmff chk" "zosmf check" :=
  ⟨by decide, by decide,
    (nearestSearch_minimum "zosmff chk" zosTree).1 "zosmf check" (by decide) (by decide)⟩

end ImperativeCli
